import Mathlib

/-!
Verification of the goimportssort core pipeline.

The development shallowly embeds the pure core of `goimportssort.go`:
the import record model (`impModel`), category resolution from the order
string (`convertImportsToSlice`), per-category sorting (`sortImports`), the
block rendering (`convertImportsToGo`), the first-occurrence text
substitution of `replaceImports`, and the `process` pipeline.  The external
parsing and re-rendering library (dave/dst) is not part of the repository;
it is modelled from the spec's Parser Adapter contract over a restricted
line-based grammar.  Go strings become Lean `String`s, byte slices become
`String`s as well (all inputs considered are ASCII), Go's fallible
functions return `Except String`.  Go's lexicographic byte order on
strings is embedded as the executable `strLt`, proved equivalent to
Mathlib's lexicographic order on `String`.
-/

/-- Lexicographic comparison of character lists, one character at a time. -/
def strLtAux : List Char → List Char → Bool
  | [], [] => false
  | [], _ :: _ => true
  | _ :: _, [] => false
  | a :: s, b :: t => if a < b then true else if b < a then false else strLtAux s t

/-- Go's `<` on strings: lexicographic comparison of the characters. -/
def strLt (a b : String) : Bool := strLtAux a.data b.data

theorem strLtAux_iff : ∀ s t : List Char, strLtAux s t = true ↔ List.Lex (· < ·) s t
  | [], [] => by
    simp only [strLtAux]
    exact iff_of_false (by simp) (List.Lex.not_nil_right _ _)
  | [], _ :: _ => by
    simp only [strLtAux]
    exact iff_of_true (by simp) List.Lex.nil
  | _ :: _, [] => by
    simp only [strLtAux]
    exact iff_of_false (by simp) (List.Lex.not_nil_right _ _)
  | a :: s, b :: t => by
    simp only [strLtAux]
    by_cases hab : a < b
    · simp only [hab, if_true]
      exact iff_of_true (by simp) (List.Lex.rel hab)
    · by_cases hba : b < a
      · simp only [hab, hba, if_false, if_true]
        refine iff_of_false (by simp) ?_
        intro hlex
        cases hlex with
        | rel h => exact hab h
        | cons h => exact lt_irrefl a hba
      · have hEq : a = b := le_antisymm (not_lt.mp hba) (not_lt.mp hab)
        subst hEq
        simp only [hab, hba, if_false]
        rw [strLtAux_iff s t]
        constructor
        · exact fun h => List.Lex.cons h
        · intro hlex
          cases hlex with
          | rel h => exact absurd h hab
          | cons h => exact h

theorem strLt_iff (a b : String) : strLt a b = true ↔ a < b := by
  rw [String.lt_iff_toList_lt]
  exact strLtAux_iff a.data b.data

theorem strLt_eq_false_iff (a b : String) : strLt a b = false ↔ b ≤ a := by
  rw [← Bool.not_eq_true, strLt_iff, not_lt]

/-- Import record `impModel`: the quoted path and the optional local
alias (`localReference`; the empty string means no alias), following the
struct of the same name in the source. -/
structure impModel where
  path : String
  localReference : String
deriving DecidableEq, Repr

/-- Rendering of one import record, from the source's `impModel.string`:
the path alone when there is no alias, otherwise alias, one space, path. -/
def impModel.string (m : impModel) : String :=
  if m.localReference = "" then m.path else m.localReference ++ " " ++ m.path

/-- The fixed default category order: inbuilt, external, local. -/
def DefaultOrder : String := "iel"

/-- Sorting of the characters of a string ascending, from the source's
`sortString` (Go `sort.Slice` on the rune array with `<`). -/
def sortString (str : String) : String :=
  String.mk (List.insertionSort (fun a b : Char => a ≤ b) str.data)

/-- Validation of the order flag, from `goImportsSortMain`: when the sorted
characters differ from those of the default order, fall back to the
default. -/
def validateOrder (o : String) : String :=
  if sortString o = sortString DefaultOrder then o else DefaultOrder

/-- The comparator of the source's `sortImports` (`sort.Slice` less
function): primary key the quoted path, secondary key the alias. -/
def impLess (a b : impModel) : Bool :=
  if a.path ≠ b.path then strLt a.path b.path
  else strLt a.localReference b.localReference

/-- The ordering a slice sorted with the `impLess` comparator satisfies:
`b` does not have to come strictly before `a`. -/
def impOrd (a b : impModel) : Prop := impLess b a = false

instance : DecidableRel impOrd := fun _ _ => instDecidableEqBool _ _

/-- Per-category sorting, from the source's `sortImports`: each of the
category slices is sorted with the `impLess` comparator. -/
def sortImports (imports : List (List impModel)) : List (List impModel) :=
  imports.map (List.insertionSort impOrd)

/-- The total order claimed by the spec: path ascending, ties broken by
ascending alias (so the empty alias comes first). -/
def keyLe (a b : impModel) : Prop :=
  a.path < b.path ∨ (a.path = b.path ∧ a.localReference ≤ b.localReference)

theorem impOrd_iff_keyLe (a b : impModel) : impOrd a b ↔ keyLe a b := by
  unfold impOrd impLess keyLe
  by_cases h : b.path = a.path
  · rw [if_neg (not_not_intro h), strLt_eq_false_iff]
    constructor
    · exact fun hle => Or.inr ⟨h.symm, hle⟩
    · rintro (hlt | ⟨-, hle⟩)
      · exact absurd (h ▸ hlt) (lt_irrefl _)
      · exact hle
  · rw [if_pos h, strLt_eq_false_iff]
    constructor
    · exact fun hle => Or.inl (lt_of_le_of_ne hle (fun e => h e.symm))
    · rintro (hlt | ⟨heq, -⟩)
      · exact le_of_lt hlt
      · exact absurd heq.symm h

instance : IsTotal impModel impOrd where
  total a b := by
    rw [impOrd_iff_keyLe, impOrd_iff_keyLe]
    unfold keyLe
    rcases lt_trichotomy a.path b.path with h | h | h
    · exact Or.inl (Or.inl h)
    · rcases le_total a.localReference b.localReference with h' | h'
      · exact Or.inl (Or.inr ⟨h, h'⟩)
      · exact Or.inr (Or.inr ⟨h.symm, h'⟩)
    · exact Or.inr (Or.inl h)

instance : IsTrans impModel impOrd where
  trans a b c := by
    rw [impOrd_iff_keyLe, impOrd_iff_keyLe, impOrd_iff_keyLe]
    unfold keyLe
    rintro (h₁ | ⟨h₁, h₁'⟩) (h₂ | ⟨h₂, h₂'⟩)
    · exact Or.inl (lt_trans h₁ h₂)
    · exact Or.inl (h₂ ▸ h₁)
    · exact Or.inl (h₁ ▸ h₂)
    · exact Or.inr ⟨h₁.trans h₂, le_trans h₁' h₂'⟩

/-- Claim C5: after `sortImports`, within every category the records are
totally ordered by path ascending, ties on equal paths broken by ascending
lexicographic alias order with the empty alias first; in particular an
unaliased `pkg/a` record sorts before one aliased `Z`. -/
theorem sortImports_orders_by_path_then_alias :
    (∀ (imports : List (List impModel)) (k : Nat),
      ((sortImports imports).getD k []).Pairwise keyLe) ∧
    sortImports [[⟨"pkg/a", "Z"⟩, ⟨"pkg/a", ""⟩]] =
      [[⟨"pkg/a", ""⟩, ⟨"pkg/a", "Z"⟩]] := by
  constructor
  · intro imports k
    rw [List.getD_eq_getElem?_getD]
    rcases h : imports[k]? with _ | b
    · simp [sortImports, List.getElem?_map, h]
    · have hb : (sortImports imports)[k]? = some (List.insertionSort impOrd b) := by
        simp [sortImports, List.getElem?_map, h]
      rw [hb]
      exact (List.sorted_insertionSort impOrd b).imp
        (fun h => (impOrd_iff_keyLe _ _).mp h)
  · decide

/-- One parsed import spec, as exposed by the syntax tree: the optional
local name and the quoted path literal (`importSpec.Path.Value`). -/
structure ImportSpec where
  name : Option String
  pathValue : String
deriving DecidableEq, Repr

/-- Go's `strings.Trim(s, "\x22")`: strip every leading and trailing
double-quote character. -/
def trimQuotes (s : String) : String :=
  String.mk (((s.data.dropWhile (· = '\x22')).reverse.dropWhile (· = '\x22')).reverse)

/-- Occurrence test on character lists: true when `pat` occurs as a
contiguous sublist.  This embeds the source's
`strings.Count(s, pat) > 0` test (for the guard's nonempty `pat`,
`Count` is positive exactly when `pat` occurs in `s`). -/
def listContainsSub (pat : List Char) : List Char → Bool
  | [] => pat.isEmpty
  | c :: t => pat.isPrefixOf (c :: t) || listContainsSub pat t

/-- String-level wrapper of `listContainsSub`. -/
def strContainsB (s pat : String) : Bool := listContainsSub pat.data s.data

/-- The source's `isStandardPackage`: membership of the (unquoted) path in
the loaded standard-package set, here carried as an explicit list. -/
def isStandardPackage (std : List String) (pkg : String) : Bool := std.contains pkg

/-- One step of the order-resolution loop of `convertImportsToSlice`: the
character at position `pos` redirects the matching category reference to
bucket `pos`; any character other than `l`, `e`, `i` is the source's
`cannot parse the order argument` error.  The triple is
(inbuild, external, local) bucket indices. -/
def applyOrderChar (order : String) (acc : Nat × Nat × Nat) (c : Char) (pos : Nat) :
    Except String (Nat × Nat × Nat) :=
  if c = 'l' then .ok (acc.1, acc.2.1, pos)
  else if c = 'e' then .ok (acc.1, pos, acc.2.2)
  else if c = 'i' then .ok (pos, acc.2.1, acc.2.2)
  else .error ("cannot parse the order argument given: " ++ order)

/-- Resolution of the three bucket indices from the first three characters
of the order string, from `convertImportsToSlice`: the references start as
(inbuild, external, local) = (0, 1, 2) and each of `chars[0..2]` reassigns
one of them.  Indexing a shorter string is Go's index-out-of-range panic. -/
def resolveOrderIndicesAux (order : String) : List Char → Except String (Nat × Nat × Nat)
  | c0 :: c1 :: c2 :: _ => do
    let a ← applyOrderChar order (0, 1, 2) c0 0
    let b ← applyOrderChar order a c1 1
    applyOrderChar order b c2 2
  | _ => .error "panic: runtime error: index out of range"

/-- Entry point of the order resolution, reading the rune slice of the
order string. -/
def resolveOrderIndices (order : String) : Except String (Nat × Nat × Nat) :=
  resolveOrderIndicesAux order order.data

/-- Construction of one import record from a spec, from
`convertImportsToSlice`: the quoted path, and the local name when present
(Go's zero value, the empty string, otherwise). -/
def mkImpModel (spec : ImportSpec) : impModel :=
  { path := spec.pathValue, localReference := spec.name.getD "" }

/-- The classification guard of `convertImportsToSlice`'s local branch:
a configured, nonempty local-prefix string occurring somewhere inside the
quoted path literal. -/
def isLocalImport (lp : String) (spec : ImportSpec) : Bool :=
  lp != "" && strContainsB spec.pathValue lp

/-- The three-way classification of one import, from the `if`/`else if`/
`else` chain of `convertImportsToSlice`: local wins first, then standard
(tested on the path with quotes trimmed), else external. -/
def classifyIdx (lp : String) (std : List String) (iIdx eIdx lIdx : Nat)
    (spec : ImportSpec) : Nat :=
  if isLocalImport lp spec then lIdx
  else if isStandardPackage std (trimQuotes spec.pathValue) then iIdx
  else eIdx

/-- Appending one record to the bucket at index `k` (Go's
`*local = append(*local, m)` through the resolved reference). -/
def appendAt (buckets : List (List impModel)) (k : Nat) (m : impModel) :
    List (List impModel) :=
  buckets.set k (buckets.getD k [] ++ [m])

/-- The spec loop of `convertImportsToSlice`: every import is appended to
the bucket its classification selects, in source order. -/
def fillBuckets (lp : String) (std : List String) (iIdx eIdx lIdx : Nat) :
    List ImportSpec → List (List impModel) → List (List impModel)
  | [], buckets => buckets
  | spec :: rest, buckets =>
    fillBuckets lp std iIdx eIdx lIdx rest
      (appendAt buckets (classifyIdx lp std iIdx eIdx lIdx spec) (mkImpModel spec))

/-- The source's `convertImportsToSlice`: three buckets, arranged by the
order string, filled from the tree's import specs. -/
def convertImportsToSlice (order lp : String) (std : List String)
    (specs : List ImportSpec) : Except String (List (List impModel)) :=
  match resolveOrderIndices order with
  | .error e => .error e
  | .ok (iIdx, eIdx, lIdx) => .ok (fillBuckets lp std iIdx eIdx lIdx specs [[], [], []])

/-- The source's `countImports`: total number of records over all
buckets. -/
def countImports (impModels : List (List impModel)) : Nat :=
  (impModels.map List.length).sum

/-- Per-category line run of the source's `convertImportsToGo` inner loop:
one line `\t<record>\n` per record. -/
def impLines : List impModel → String
  | [] => ""
  | imp :: rest => "\t" ++ imp.string ++ "\n" ++ impLines rest

/-- The category loop of `convertImportsToGo`: empty categories are
skipped, each non-empty category contributes a newline and its run of
lines. -/
def impGroups : List (List impModel) → String
  | [] => ""
  | b :: rest => (if b.isEmpty then "" else "\n" ++ impLines b) ++ impGroups rest

/-- The source's `convertImportsToGo`: the grouped import block. -/
def convertImportsToGo (imports : List (List impModel)) : String :=
  "import (" ++ impGroups imports ++ ")"

theorem applyOrderChar_lt {order : String} {acc : Nat × Nat × Nat} {c : Char}
    {pos : Nat} {r : Nat × Nat × Nat}
    (h : applyOrderChar order acc c pos = .ok r)
    (h1 : acc.1 < 3) (h2 : acc.2.1 < 3) (h3 : acc.2.2 < 3) (hp : pos < 3) :
    r.1 < 3 ∧ r.2.1 < 3 ∧ r.2.2 < 3 := by
  unfold applyOrderChar at h
  split at h
  · cases h
    exact ⟨h1, h2, hp⟩
  · split at h
    · cases h
      exact ⟨h1, hp, h3⟩
    · split at h
      · cases h
        exact ⟨hp, h2, h3⟩
      · exact absurd h (by simp)

theorem resolveOrderIndices_lt {order : String} {r : Nat × Nat × Nat}
    (h : resolveOrderIndices order = .ok r) :
    r.1 < 3 ∧ r.2.1 < 3 ∧ r.2.2 < 3 := by
  unfold resolveOrderIndices at h
  rcases hd : order.data with _ | ⟨c0, _ | ⟨c1, _ | ⟨c2, rest⟩⟩⟩ <;> rw [hd] at h <;>
    simp only [resolveOrderIndicesAux] at h <;>
    try exact absurd h (by simp)
  · cases ha : applyOrderChar order (0, 1, 2) c0 0 with
    | error e => rw [ha] at h; simp [Bind.bind, Except.bind] at h
    | ok a =>
      rw [ha] at h
      simp only [Bind.bind, Except.bind] at h
      cases hb : applyOrderChar order a c1 1 with
      | error e => rw [hb] at h; simp [Except.bind] at h
      | ok b =>
        rw [hb] at h
        simp only [Except.bind] at h
        have hstep1 := applyOrderChar_lt ha (by decide) (by decide) (by decide) (by decide)
        have hstep2 := applyOrderChar_lt hb hstep1.1 hstep1.2.1 hstep1.2.2 (by decide)
        exact applyOrderChar_lt h hstep2.1 hstep2.2.1 hstep2.2.2 (by decide)

theorem classifyIdx_lt {lp : String} {std : List String} {i e l : Nat}
    {spec : ImportSpec} (hi : i < 3) (he : e < 3) (hl : l < 3) :
    classifyIdx lp std i e l spec < 3 := by
  unfold classifyIdx
  split
  · exact hl
  · split
    · exact hi
    · exact he

theorem appendAt_length (bs : List (List impModel)) (k : Nat) (m : impModel) :
    (appendAt bs k m).length = bs.length := by
  simp [appendAt]

theorem appendAt_join_perm :
    ∀ (bs : List (List impModel)) (k : Nat) (m : impModel), k < bs.length →
      (appendAt bs k m).flatten.Perm (bs.flatten ++ [m])
  | [], k, m, h => absurd h (by simp)
  | b :: bs, 0, m, _ => by
    show ((b ++ [m]) :: bs).flatten.Perm ((b :: bs).flatten ++ [m])
    simp only [List.flatten_cons, List.append_assoc]
    exact List.Perm.append_left b (List.perm_append_comm)
  | b :: bs, k + 1, m, h => by
    show (b :: appendAt bs k m).flatten.Perm ((b :: bs).flatten ++ [m])
    simp only [List.flatten_cons, List.append_assoc]
    exact List.Perm.append_left b
      (appendAt_join_perm bs k m (by simpa using Nat.lt_of_succ_lt_succ h))

theorem fillBuckets_length (lp : String) (std : List String) (i e l : Nat) :
    ∀ (specs : List ImportSpec) (bs : List (List impModel)),
      (fillBuckets lp std i e l specs bs).length = bs.length
  | [], _ => rfl
  | spec :: rest, bs => by
    show (fillBuckets lp std i e l rest _).length = _
    rw [fillBuckets_length lp std i e l rest, appendAt_length]

theorem fillBuckets_join_perm (lp : String) (std : List String) {i e l : Nat}
    (hi : i < 3) (he : e < 3) (hl : l < 3) :
    ∀ (specs : List ImportSpec) (bs : List (List impModel)), bs.length = 3 →
      (fillBuckets lp std i e l specs bs).flatten.Perm
        (bs.flatten ++ specs.map mkImpModel)
  | [], bs, _ => by simp [fillBuckets]
  | spec :: rest, bs, hlen => by
    have hk : classifyIdx lp std i e l spec < bs.length :=
      hlen ▸ classifyIdx_lt hi he hl
    have hstep := appendAt_join_perm bs (classifyIdx lp std i e l spec)
      (mkImpModel spec) hk
    have ih := fillBuckets_join_perm lp std hi he hl rest
      (appendAt bs (classifyIdx lp std i e l spec) (mkImpModel spec))
      (by rw [appendAt_length]; exact hlen)
    show (fillBuckets lp std i e l rest _).flatten.Perm _
    refine ih.trans ?_
    refine (hstep.append_right (rest.map mkImpModel)).trans ?_
    simp [List.append_assoc]

theorem countImports_eq_length_join (bs : List (List impModel)) :
    countImports bs = bs.flatten.length := by
  simp [countImports, List.length_flatten]

/-- Claim C8: whenever `convertImportsToSlice` succeeds, every extracted
record lands in exactly one of the three buckets — the concatenated
buckets are a permutation of the record list, with nothing omitted and
nothing duplicated — and the total count equals the sum of the bucket
sizes. -/
theorem classification_partitions_imports (order lp : String) (std : List String)
    (specs : List ImportSpec) (buckets : List (List impModel))
    (h : convertImportsToSlice order lp std specs = .ok buckets) :
    buckets.length = 3 ∧ countImports buckets = specs.length ∧
      buckets.flatten.Perm (specs.map mkImpModel) := by
  unfold convertImportsToSlice at h
  cases hr : resolveOrderIndices order with
  | error e => rw [hr] at h; exact absurd h (by simp)
  | ok r =>
    obtain ⟨i, e, l⟩ := r
    obtain ⟨hi, he, hl⟩ := resolveOrderIndices_lt hr
    rw [hr] at h
    have hb : fillBuckets lp std i e l specs [[], [], []] = buckets :=
      Except.ok.inj h
    have hperm := fillBuckets_join_perm lp std hi he hl specs [[], [], []] rfl
    rw [hb] at hperm
    simp only [List.flatten, List.append_nil, List.nil_append] at hperm
    refine ⟨?_, ?_, hperm⟩
    · rw [← hb, fillBuckets_length]
      rfl
    · rw [countImports_eq_length_join, hperm.length_eq]
      simp

/-- Witness evaluating Claim C8's theorem at a concrete input. -/
theorem classification_partitions_imports_witness :
    convertImportsToSlice "iel" "corp" ["fmt"]
        [⟨none, "\"fmt\""⟩, ⟨some "x", "\"a/b\""⟩, ⟨none, "\"corp/z\""⟩] =
      .ok [[⟨"\"fmt\"", ""⟩], [⟨"\"a/b\"", "x"⟩], [⟨"\"corp/z\"", ""⟩]] ∧
    ([[⟨"\"fmt\"", ""⟩], [⟨"\"a/b\"", "x"⟩], [⟨"\"corp/z\"", ""⟩]] :
        List (List impModel)).length = 3 ∧
    countImports [[⟨"\"fmt\"", ""⟩], [⟨"\"a/b\"", "x"⟩], [⟨"\"corp/z\"", ""⟩]] =
      [(⟨none, "\"fmt\""⟩ : ImportSpec), ⟨some "x", "\"a/b\""⟩,
        ⟨none, "\"corp/z\""⟩].length ∧
    ([[⟨"\"fmt\"", ""⟩], [⟨"\"a/b\"", "x"⟩], [⟨"\"corp/z\"", ""⟩]] :
        List (List impModel)).flatten.Perm
      ([(⟨none, "\"fmt\""⟩ : ImportSpec), ⟨some "x", "\"a/b\""⟩,
        ⟨none, "\"corp/z\""⟩].map mkImpModel) :=
  ⟨by rfl,
    classification_partitions_imports "iel" "corp" ["fmt"] _ _ (by rfl)⟩

/-- Claim C10: the local-prefix substring test runs on the quoted path
literal exactly as extracted (quotes included), while the standard-library
membership test runs on the path with quotes trimmed; a configured prefix
therefore matches exactly when it occurs inside the quoted form, as the
concrete conjuncts demonstrate with a prefix that ends in a quote
character. -/
theorem local_match_on_quoted_path (lp : String) (std : List String)
    (i e l : Nat) (spec : ImportSpec) (h : lp ≠ "") :
    (classifyIdx lp std i e l spec =
      if strContainsB spec.pathValue lp then l
      else if isStandardPackage std (trimQuotes spec.pathValue) then i
      else e) ∧
    convertImportsToSlice "iel" "name\"" ["pkg/name"] [⟨none, "\"pkg/name\""⟩] =
      .ok [[], [], [⟨"\"pkg/name\"", ""⟩]] ∧
    strContainsB "pkg/name" "name\"" = false := by
  refine ⟨?_, by rfl, by decide⟩
  unfold classifyIdx isLocalImport
  have hbne : (lp != "") = true := by simpa using h
  rw [hbne, Bool.true_and]

/-- Witness evaluating Claim C10's theorem at a concrete input. -/
theorem local_match_on_quoted_path_witness :
    ("x" : String) ≠ "" ∧
    ((classifyIdx "x" [] 0 1 2 ⟨none, "\"x/y\""⟩ =
      if strContainsB "\"x/y\"" "x" then 2
      else if isStandardPackage [] (trimQuotes "\"x/y\"") then 0
      else 1) ∧
    convertImportsToSlice "iel" "name\"" ["pkg/name"] [⟨none, "\"pkg/name\""⟩] =
      .ok [[], [], [⟨"\"pkg/name\"", ""⟩]] ∧
    strContainsB "pkg/name" "name\"" = false) :=
  ⟨by decide, local_match_on_quoted_path "x" [] 0 1 2 ⟨none, "\"x/y\""⟩ (by decide)⟩

/-- Splitting a string at every occurrence of a separator character. -/
def splitCharAux (sep : Char) : List Char → List Char → List String
  | [], acc => [String.mk acc.reverse]
  | c :: t, acc =>
    if c = sep then String.mk acc.reverse :: splitCharAux sep t []
    else splitCharAux sep t (c :: acc)

/-- String-level wrapper of `splitCharAux`. -/
def splitChar (sep : Char) (s : String) : List String :=
  splitCharAux sep s.data []

/-- Modelled from the spec: the `-local` flag is described (flag help text
and spec section 6) as a comma-separated list of prefixes, an import being
local when its path contains any one of the configured prefixes as a
substring.  This is the claim-side matching rule, to be compared with the
source's single-string containment test. -/
def specLocalMatch (lp path : String) : Bool :=
  lp != "" && (splitChar ',' lp).any (fun p => strContainsB path p)

/-- Claim C2 evaluation at the failing input: with the comma-separated
configuration `corp/a,corp/b`, the import `"corp/a/util"` is local per the
documented matching rule, but the code never splits on commas, finds no
occurrence of the full configured string, and files the import as
third-party (middle bucket of the default order). -/
theorem comma_separated_prefixes_not_split :
    convertImportsToSlice "iel" "corp/a,corp/b" [] [⟨none, "\"corp/a/util\""⟩] =
      .ok [[], [⟨"\"corp/a/util\"", ""⟩], []] ∧
    specLocalMatch "corp/a,corp/b" "\"corp/a/util\"" = true :=
  ⟨by rfl, by decide⟩

/-- Joining of lines with a single newline character between consecutive
lines. -/
def nlJoin : List String → String
  | [] => ""
  | [l] => l
  | l :: next :: rest => l ++ "\n" ++ nlJoin (next :: rest)

/-- Interposing one blank line between consecutive category line runs. -/
def sepBlank : List (List String) → List String
  | [] => []
  | [ls] => ls
  | ls :: next :: rest => ls ++ "" :: sepBlank (next :: rest)

/-- The lines of one rendered category: one line per record, a tab then the
record rendering. -/
def renderCatLines (b : List impModel) : List String :=
  b.map (fun imp => "\t" ++ imp.string)

/-- Proof-layer form of `impGroups` over the non-empty categories only:
a newline then the category's line run, per category. -/
def chunks : List (List impModel) → String
  | [] => ""
  | b :: rest => "\n" ++ impLines b ++ chunks rest

theorem impGroups_eq_chunks : ∀ l : List (List impModel),
    impGroups l = chunks (l.filter fun b => !b.isEmpty)
  | [] => rfl
  | b :: rest => by
    rw [impGroups, List.filter_cons]
    by_cases hb : b.isEmpty
    · simp [hb, impGroups_eq_chunks rest, String.empty_append]
    · simp [hb, impGroups_eq_chunks rest, chunks, String.append_assoc]

theorem nlJoin_cons (x : String) (tail : List String) (h : tail ≠ []) :
    nlJoin (x :: tail) = x ++ "\n" ++ nlJoin tail := by
  cases tail with
  | nil => exact absurd rfl h
  | cons y t => rfl

theorem nlJoin_catLines (b : List impModel) (x : String) (tail : List String) :
    nlJoin (renderCatLines b ++ x :: tail) = impLines b ++ nlJoin (x :: tail) := by
  induction b with
  | nil => simp [renderCatLines, impLines, String.empty_append]
  | cons imp rest ih =>
    show nlJoin (("\t" ++ imp.string) :: (renderCatLines rest ++ x :: tail)) = _
    rw [nlJoin_cons _ _ (by simp), ih, impLines]
    simp [String.append_assoc]

theorem chunks_eq_nlJoin : ∀ cats : List (List impModel), cats ≠ [] →
    chunks cats ++ ")" = "\n" ++ nlJoin (sepBlank (cats.map renderCatLines) ++ [")"])
  | [], h => absurd rfl h
  | [c], _ => by
    show ("\n" ++ impLines c ++ chunks []) ++ ")" = _
    rw [show chunks [] = "" from rfl, String.append_empty]
    rw [show ([c].map renderCatLines) = [renderCatLines c] from rfl,
      show sepBlank [renderCatLines c] = renderCatLines c from rfl]
    rw [nlJoin_catLines c ")" []]
    simp [nlJoin, String.append_assoc]
  | c :: c' :: rest, _ => by
    have ih := chunks_eq_nlJoin (c' :: rest) (by simp)
    show ("\n" ++ impLines c ++ chunks (c' :: rest)) ++ ")" = _
    rw [show ((c :: c' :: rest).map renderCatLines) =
      renderCatLines c :: renderCatLines c' :: (rest.map renderCatLines) from rfl]
    rw [show sepBlank (renderCatLines c :: renderCatLines c' ::
        (rest.map renderCatLines)) =
      renderCatLines c ++ "" :: sepBlank (renderCatLines c' ::
        (rest.map renderCatLines)) from rfl]
    rw [List.append_assoc, List.cons_append, nlJoin_catLines,
      nlJoin_cons _ _ (by simp), String.empty_append]
    rw [show (c' :: rest).map renderCatLines =
      renderCatLines c' :: rest.map renderCatLines from rfl] at ih
    rw [String.append_assoc, String.append_assoc, ih]

/-- Claim C3: the synthesized import block is one grouping construct whose
text is exactly the newline-joining of: the `import (` opener, the
non-empty categories' contiguous line runs (one tab-indented line per
record) separated by exactly one blank line each, and the `)` closer —
with no leading or trailing blank line inside the construct and no
placeholder for empty categories. -/
theorem import_block_layout (imports : List (List impModel))
    (h : imports.filter (fun b => !b.isEmpty) ≠ []) :
    convertImportsToGo imports =
      nlJoin ("import (" ::
        sepBlank ((imports.filter fun b => !b.isEmpty).map renderCatLines) ++
          [")"]) := by
  unfold convertImportsToGo
  rw [impGroups_eq_chunks]
  rw [String.append_assoc, chunks_eq_nlJoin _ h, ← String.append_assoc]
  exact (nlJoin_cons _ _ (by simp)).symm

/-- Witness evaluating Claim C3's theorem at a concrete input. -/
theorem import_block_layout_witness :
    ([[⟨"\"fmt\"", ""⟩], [], [⟨"\"x\"", "a"⟩]] :
        List (List impModel)).filter (fun b => !b.isEmpty) ≠ [] ∧
    convertImportsToGo [[⟨"\"fmt\"", ""⟩], [], [⟨"\"x\"", "a"⟩]] =
      nlJoin ("import (" ::
        sepBlank ((([[⟨"\"fmt\"", ""⟩], [], [⟨"\"x\"", "a"⟩]] :
          List (List impModel)).filter fun b => !b.isEmpty).map renderCatLines) ++
          [")"]) :=
  ⟨by decide, import_block_layout [[⟨"\"fmt\"", ""⟩], [], [⟨"\"x\"", "a"⟩]]
    (by decide)⟩

theorem countImports_filter (l : List (List impModel)) :
    countImports (l.filter fun b => !b.isEmpty) = countImports l := by
  induction l with
  | nil => rfl
  | cons b rest ih =>
    rw [List.filter_cons]
    by_cases hb : b.isEmpty
    · obtain rfl : b = [] := List.isEmpty_iff.mp hb
      simpa [countImports] using ih
    · simp only [hb, Bool.not_false, if_true]
      simp [countImports] at ih ⊢
      exact ih

/-- Claim C9: the synthesizer emits exactly one line per record and never
merges, deduplicates, or drops records: the rendered block is the opener,
the chunked non-empty category runs and the closer, the record lines over
all categories number exactly `countImports`, and two records with
identical path and alias still produce two identical lines. -/
theorem one_line_per_record (imports : List (List impModel)) :
    convertImportsToGo imports =
      "import (" ++ chunks (imports.filter fun b => !b.isEmpty) ++ ")" ∧
    ((imports.filter fun b => !b.isEmpty).map renderCatLines).flatten.length =
      countImports imports ∧
    convertImportsToGo [[⟨"\"p\"", "APA"⟩, ⟨"\"p\"", "APA"⟩]] =
      "import (\n\tAPA \"p\"\n\tAPA \"p\"\n)" := by
  refine ⟨?_, ?_, by rfl⟩
  · unfold convertImportsToGo
    rw [impGroups_eq_chunks]
  · rw [← countImports_filter imports]
    generalize (imports.filter fun b => !b.isEmpty) = L
    have hlen : ∀ b : List impModel, (renderCatLines b).length = b.length := by
      intro b
      simp [renderCatLines]
    simp [List.length_flatten, countImports, Function.comp_def, hlen]

/-- Go's `bytes.Replace(s, pat, repl, 1)`: replace the first occurrence of
`pat` (scanning left to right), leave everything else unchanged. -/
def replaceFirst (pat repl : List Char) : List Char → List Char
  | [] => if pat.isPrefixOf ([] : List Char) then repl ++ List.drop pat.length [] else []
  | c :: t =>
    if pat.isPrefixOf (c :: t) then repl ++ List.drop pat.length (c :: t)
    else c :: replaceFirst pat repl t

theorem replaceFirst_of_pref {pat : List Char} (repl s : List Char)
    (h : pat.isPrefixOf s = true) :
    replaceFirst pat repl s = repl ++ s.drop pat.length := by
  cases s <;> simp [replaceFirst, h]

theorem replaceFirst_cons_of_not {pat : List Char} (repl : List Char) (c : Char)
    (t : List Char) (h : pat.isPrefixOf (c :: t) = false) :
    replaceFirst pat repl (c :: t) = c :: replaceFirst pat repl t := by
  simp [replaceFirst, h]

theorem isPrefixOf_append_self : ∀ l r : List Char, l.isPrefixOf (l ++ r) = true
  | [], _ => by simp
  | a :: as, r => by
    simp [List.isPrefixOf, isPrefixOf_append_self as r]

theorem replaceFirst_at : ∀ (pre pat repl rest : List Char),
    (∀ k, k < pre.length →
      pat.isPrefixOf ((pre ++ pat ++ rest).drop k) = false) →
    replaceFirst pat repl (pre ++ pat ++ rest) = pre ++ repl ++ rest
  | [], pat, repl, rest, _ => by
    rw [List.nil_append, List.nil_append,
      replaceFirst_of_pref repl (pat ++ rest) (isPrefixOf_append_self pat rest),
      List.drop_left]
  | c :: pre, pat, repl, rest, h => by
    have h0 : pat.isPrefixOf (c :: (pre ++ pat ++ rest)) = false := by
      have hk := h 0 (by simp)
      simpa using hk
    show replaceFirst pat repl (c :: (pre ++ pat ++ rest)) = c :: (pre ++ repl ++ rest)
    rw [replaceFirst_cons_of_not repl c _ h0]
    exact congrArg (c :: ·) (replaceFirst_at pre pat repl rest (fun k hk => by
      have hk1 := h (k + 1) (by simpa using Nat.succ_lt_succ hk)
      simpa using hk1))

/-- The text substitution of the source's `replaceImports` (line 279): the
first occurrence of `package <name>` in the re-rendered buffer is replaced
by itself, a blank line and the synthesized import block. -/
def replaceImports (newImports pkgName rendered : String) : String :=
  String.mk (replaceFirst ("package " ++ pkgName).data
    ("package " ++ pkgName ++ "\n\n" ++ newImports).data rendered.data)

/-- Claim C4 (amended): the splice rewrites the first occurrence of the
literal text `package <name>` in the re-rendered import-free buffer; when
that text does not occur at any earlier position, the result is the
prefix unchanged, the package clause text, one blank line, the
synthesized block, and the remaining text unchanged. -/
theorem splice_after_first_occurrence (pkgName newImports : String)
    (pre rest : List Char)
    (h : ∀ k, k < pre.length →
      ("package " ++ pkgName).data.isPrefixOf
        ((pre ++ ("package " ++ pkgName).data ++ rest).drop k) = false) :
    replaceImports newImports pkgName
        (String.mk (pre ++ ("package " ++ pkgName).data ++ rest)) =
      String.mk (pre ++ ("package " ++ pkgName).data ++
        ('\n' :: '\n' :: newImports.data) ++ rest) := by
  unfold replaceImports
  refine congrArg String.mk ?_
  rw [show (String.mk (pre ++ ("package " ++ pkgName).data ++ rest)).data =
    pre ++ ("package " ++ pkgName).data ++ rest from rfl]
  rw [replaceFirst_at pre _ _ rest h]
  simp [String.data_append, List.append_assoc,
    show ("\n\n" : String).data = ['\n', '\n'] from rfl]

/-- Witness evaluating Claim C4's amended theorem at a concrete input. -/
theorem splice_after_first_occurrence_witness :
    (∀ k, k < ("// x\n".data).length →
      ("package " ++ "main").data.isPrefixOf
        (("// x\n".data ++ ("package " ++ "main").data ++ "\nfunc".data).drop k) =
          false) ∧
    replaceImports "import (\n\t\"fmt\"\n)" "main"
        (String.mk ("// x\n".data ++ ("package " ++ "main").data ++ "\nfunc".data)) =
      String.mk ("// x\n".data ++ ("package " ++ "main").data ++
        ('\n' :: '\n' :: ("import (\n\t\"fmt\"\n)").data) ++ "\nfunc".data) :=
  ⟨by decide, splice_after_first_occurrence "main" "import (\n\t\"fmt\"\n)"
    ("// x\n".data) ("\nfunc".data) (by decide)⟩

/-- Splitting of a byte buffer into lines at newline characters. -/
def splitLines (s : String) : List String := splitCharAux '\n' s.data []

/-- Character-wise trim of leading and trailing whitespace. -/
def trimChars (s : String) : String :=
  String.mk
    (((s.data.dropWhile Char.isWhitespace).reverse.dropWhile Char.isWhitespace).reverse)

/-- Character-wise test that `p` begins the string `s`. -/
def strStartsWith (s p : String) : Bool := p.data.isPrefixOf s.data

/-- Character-wise test that `p` ends the string `s`. -/
def strEndsWith (s p : String) : Bool := p.data.isSuffixOf s.data

/-- Dropping the first `n` characters of a string. -/
def strDrop (s : String) (n : Nat) : String := String.mk (s.data.drop n)

/-- A line the parser model skips before the package clause: blank or a
line comment. -/
def isHeaderLine (l : String) : Bool :=
  trimChars l = "" || strStartsWith (trimChars l) "//"

/-- One top-level item of the parsed body: an import declaration carrying
its specs, or a verbatim source line. -/
inductive BodyItem where
  | importDecl (specs : List ImportSpec)
  | srcLine (line : String)
deriving DecidableEq, Repr

/-- Modelled from the spec: the round-trippable tree of the Parser Adapter
(spec section 4.1), restricted to what the pipeline reads — the comment and
blank lines before the package clause, the package clause's name, and the
body as import declarations plus verbatim remaining lines. -/
structure GoSourceFile where
  header : List String
  pkgName : String
  body : List BodyItem
deriving DecidableEq, Repr

/-- A token of the shape `"..."`. -/
def isQuotedTok (t : String) : Bool :=
  decide (2 ≤ t.data.length) && strStartsWith t "\"" && strEndsWith t "\""

/-- Parsing of one import spec token: `"path"`, or `alias "path"`. -/
def parseImportSpecToken (t : String) : Except String ImportSpec :=
  match splitChar ' ' t with
  | [p] => if isQuotedTok p then .ok ⟨none, p⟩ else .error "invalid import spec"
  | [a, p] =>
    if isQuotedTok p && !(a == "") then .ok ⟨some a, p⟩
    else .error "invalid import spec"
  | _ => .error "invalid import spec"

/-- Parsing of the lines of a grouped import declaration up to its closing
parenthesis; blank lines and line comments inside the group are dropped
(the pipeline regenerates the block without them). -/
def parseGroupLines : List String → Except String (List ImportSpec × List String)
  | [] => .error "expected closing parenthesis in import declaration"
  | l :: rest =>
    if trimChars l = ")" then .ok ([], rest)
    else if isHeaderLine l then parseGroupLines rest
    else do
      let spec ← parseImportSpecToken (trimChars l)
      let (specs, rest') ← parseGroupLines rest
      .ok (spec :: specs, rest')

/-- Parsing of the body lines into items; the fuel argument is the line
count, consumed one line at a time. -/
def parseBodyLines : Nat → List String → Except String (List BodyItem)
  | _, [] => .ok []
  | 0, _ :: _ => .error "internal: line budget exhausted"
  | fuel + 1, l :: rest =>
    if l = "import (" then do
      let (specs, rest') ← parseGroupLines rest
      let items ← parseBodyLines fuel rest'
      .ok (.importDecl specs :: items)
    else if strStartsWith l "import " then do
      let spec ← parseImportSpecToken (trimChars (strDrop l 7))
      let items ← parseBodyLines fuel rest
      .ok (.importDecl [spec] :: items)
    else do
      let items ← parseBodyLines fuel rest
      .ok (.srcLine l :: items)

/-- Parsing of the package clause line. -/
def parsePackageLine (l : String) : Except String String :=
  if strStartsWith l "package " then
    let nm := strDrop l 8
    if nm = "" then .error "expected package clause" else .ok nm
  else .error "expected package clause"

/-- Modelled from the spec: the Parser Adapter contract (spec section 4.1)
over a restricted line-based grammar — leading blank and line-comment
lines, then a `package <name>` clause, then top-level items where import
declarations are either `import <spec>` on one line or an `import (` ...
`)` group; any other shape before the package clause is the adapter's
parse error.  Invalid bytes fail with an error carrying a message, which
aborts the pipeline for that input. -/
def parseGoSource (src : String) : Except String GoSourceFile :=
  let lines := splitLines src
  let header := lines.takeWhile isHeaderLine
  match lines.dropWhile isHeaderLine with
  | [] => .error "expected package clause"
  | pkgLine :: restLines => do
    let nm ← parsePackageLine pkgLine
    let body ← parseBodyLines restLines.length restLines
    .ok ⟨header, nm, body⟩

/-- The tree's import list (`node.Imports`): every spec of every import
declaration, in source order. -/
def bodySpecs (body : List BodyItem) : List ImportSpec :=
  body.foldr
    (fun it acc =>
      match it with
      | .importDecl specs => specs ++ acc
      | .srcLine _ => acc) []

/-- Modelled from the spec: re-rendering of the tree after every import
declaration node has been deleted (`dstutil.Apply` + `decorator.Fprint`),
with comments and the remaining lines reproduced verbatim (spec sections
4.1 and 4.4). -/
def renderWithoutImports (f : GoSourceFile) : String :=
  nlJoin (f.header ++ ("package " ++ f.pkgName) ::
    (f.body.filterMap fun it =>
      match it with
      | .srcLine l => some l
      | .importDecl _ => none))

/-- The source's `process`: load of the standard-package set (carried here
as the `std` argument), parse, extraction and classification, the
zero-import short circuit returning the input unchanged, then sorting,
rendering and splicing. -/
def process (order lp : String) (std : List String) (src : String) :
    Except String String := do
  let node ← parseGoSource src
  let buckets ← convertImportsToSlice order lp std (bodySpecs node.body)
  if countImports buckets = 0 then
    return src
  else
    return replaceImports (convertImportsToGo (sortImports buckets))
      node.pkgName (renderWithoutImports node)

/-- A file whose leading comment contains the text of its own package
clause, followed by a single standard-library import. -/
def srcLeadingComment : String :=
  "// package main\npackage main\nimport \"fmt\"\nfunc main() \x7b\n\x7d"

/-- What the pipeline produces for `srcLeadingComment`: the first
occurrence of `package main` sits inside the leading comment, so the block
of imports is spliced into the comment, ahead of the real package
clause. -/
def outLeadingComment : String :=
  "// package main\n\nimport (\n\t\"fmt\"\n)\npackage main\nfunc main() \x7b\n\x7d"

/-- Claim C1: the pipeline is not idempotent.  On `srcLeadingComment` the
first run succeeds but splices the import block into the leading comment;
its output no longer starts with a package clause, so the second run fails
with a parse error instead of reproducing the output. -/
theorem process_not_idempotent_on_leading_comment :
    process "iel" "" ["fmt"] srcLeadingComment = .ok outLeadingComment ∧
    process "iel" "" ["fmt"] outLeadingComment = .error "expected package clause" :=
  ⟨rfl, rfl⟩

/-- Claim C4 counterexample: on `srcLeadingComment` the substitution does
not insert the block immediately after the package clause line — the
output differs from the text the claim prescribes (block after the package
clause, all content outside the block unchanged). -/
theorem splice_hits_leading_comment :
    process "iel" "" ["fmt"] srcLeadingComment = .ok outLeadingComment ∧
    outLeadingComment ≠
      "// package main\npackage main\n\nimport (\n\t\"fmt\"\n)\nfunc main() \x7b\n\x7d" :=
  ⟨rfl, by decide⟩

/-- Claim C6 counterexample: an input with no import declarations can
still make the pipeline fail — when the bytes do not parse (no package
clause), and, for a parseable input, when the configured order string is
not accepted by the classifier. -/
theorem zero_imports_error_cases :
    strContainsB "func main() \x7b\n\x7d" "import" = false ∧
    process "iel" "" [] "func main() \x7b\n\x7d" = .error "expected package clause" ∧
    strContainsB "package main\nfunc main() \x7b\n\x7d" "import" = false ∧
    process "zzz" "" [] "package main\nfunc main() \x7b\n\x7d" =
      .error "cannot parse the order argument given: zzz" :=
  ⟨by decide, rfl, by decide, rfl⟩

theorem applyOrderChar_ok {c : Char} (order : String) (acc : Nat × Nat × Nat)
    (pos : Nat) (h : c = 'i' ∨ c = 'e' ∨ c = 'l') :
    ∃ r, applyOrderChar order acc c pos = .ok r := by
  rcases h with h | h | h <;> subst h <;> exact ⟨_, rfl⟩

theorem resolveOrderIndices_ok_of_valid (o : String)
    (horder : sortString o = sortString DefaultOrder) :
    ∃ r, resolveOrderIndices o = .ok r := by
  have hdata : o.data.Perm ['i', 'e', 'l'] := by
    have h1 : (sortString o).data = (sortString DefaultOrder).data :=
      congrArg String.data horder
    have h2 : List.Perm o.data (List.insertionSort (fun a b : Char => a ≤ b) o.data) :=
      (List.perm_insertionSort _ _).symm
    have h3 : List.insertionSort (fun a b : Char => a ≤ b) o.data =
        List.insertionSort (fun a b : Char => a ≤ b) DefaultOrder.data := h1
    have h4 : List.Perm (List.insertionSort (fun a b : Char => a ≤ b) o.data)
        DefaultOrder.data := by
      rw [h3]
      exact List.perm_insertionSort _ _
    exact (by decide : DefaultOrder.data = ['i', 'e', 'l']) ▸ h2.trans h4
  have hlen : o.data.length = 3 := by simpa using hdata.length_eq
  have hmem : ∀ c ∈ o.data, c = 'i' ∨ c = 'e' ∨ c = 'l' := by
    intro c hc
    have h2 := hdata.mem_iff.mp hc
    simpa using h2
  rcases hd : o.data with _ | ⟨c0, _ | ⟨c1, _ | ⟨c2, rest⟩⟩⟩ <;> rw [hd] at hlen
  · exact absurd hlen (by simp)
  · exact absurd hlen (by simp)
  · exact absurd hlen (by simp)
  obtain rfl : rest = [] := by
    refine List.length_eq_zero.mp ?_
    simp only [List.length_cons] at hlen
    omega
  have hm0 := hmem c0 (by rw [hd]; exact List.mem_cons_self _ _)
  have hm1 := hmem c1 (by rw [hd]; simp)
  have hm2 := hmem c2 (by rw [hd]; simp)
  obtain ⟨a, ha⟩ := applyOrderChar_ok o (0, 1, 2) 0 hm0
  obtain ⟨b, hb⟩ := applyOrderChar_ok o a 1 hm1
  obtain ⟨r, hr⟩ := applyOrderChar_ok o b 2 hm2
  refine ⟨r, ?_⟩
  unfold resolveOrderIndices
  rw [hd]
  simp only [resolveOrderIndicesAux, Bind.bind, Except.bind]
  rw [ha]
  simp only []
  rw [hb]
  simp only []
  exact hr

/-- Claim C6 (amended): for every input the parser accepts that carries
no imports at all, and any order string the startup validation accepts,
the pipeline returns the original bytes unchanged and reports no error. -/
theorem process_zero_imports_noop (order lp : String) (std : List String)
    (src : String) (f : GoSourceFile)
    (hparse : parseGoSource src = .ok f)
    (hnone : bodySpecs f.body = [])
    (horder : sortString order = sortString DefaultOrder) :
    process order lp std src = .ok src := by
  obtain ⟨r, hr⟩ := resolveOrderIndices_ok_of_valid order horder
  obtain ⟨i, e, l⟩ := r
  unfold process
  rw [hparse]
  simp only [Bind.bind, Except.bind, hnone]
  unfold convertImportsToSlice
  rw [hr]
  simp only [fillBuckets]
  rfl

/-- Witness evaluating Claim C6's amended theorem at a concrete input. -/
theorem process_zero_imports_noop_witness :
    parseGoSource "package main\nfunc main() \x7b\n\x7d" =
      .ok ⟨[], "main", [.srcLine "func main() \x7b", .srcLine "\x7d"]⟩ ∧
    bodySpecs [BodyItem.srcLine "func main() \x7b", .srcLine "\x7d"] = [] ∧
    sortString "iel" = sortString DefaultOrder ∧
    process "iel" "" [] "package main\nfunc main() \x7b\n\x7d" =
      .ok "package main\nfunc main() \x7b\n\x7d" :=
  ⟨rfl, rfl, rfl,
    process_zero_imports_noop "iel" "" [] _ _ rfl rfl rfl⟩

/-- Claim C7: an order string whose sorted character multiset differs from
the default's falls back to the default order at startup, and the pipeline
run with the validated order produces exactly the output of the default
order — a malformed order string never aborts the run. -/
theorem invalid_order_falls_back (o lp : String) (std : List String)
    (src : String) (h : sortString o ≠ sortString DefaultOrder) :
    validateOrder o = DefaultOrder ∧
    process (validateOrder o) lp std src = process DefaultOrder lp std src := by
  have hv : validateOrder o = DefaultOrder := if_neg h
  exact ⟨hv, by rw [hv]⟩

/-- Witness evaluating Claim C7's theorem at a concrete input. -/
theorem invalid_order_falls_back_witness :
    sortString "iii" ≠ sortString DefaultOrder ∧
    (validateOrder "iii" = DefaultOrder ∧
      process (validateOrder "iii") "" [] "package main" =
        process DefaultOrder "" [] "package main") :=
  ⟨by decide, invalid_order_falls_back "iii" "" [] "package main" (by decide)⟩
